import Mathlib

/-!
Verification of the `mqtxtar` archiver (magisterquis/mqtxtar) against its
natural-language specification.

The repository's core is the Archiver engine in `internal/archiver`
(`archiver.go`, `create.go`, `listextract.go`); the source tree also retains a
superseded 2023 implementation (`mqtxtar.go`, `create.go` = `unnamed/part_000`,
`extract.go`, `clean.go` in the `main` package) which some spec sentences
describe.  Both are embedded below, with each definition's doc comment naming
the Go function it translates.

Byte strings are modelled as `List Char` (`Bytes`); Go's `[]byte` and `string`
both map to it.  All definitions are executable and structurally recursive so
that concrete runs evaluate by `decide`/`rfl`/`simp`.
-/

set_option autoImplicit false

abbrev Bytes := List Char

/-- Shorthand for the character list of a string literal. -/
def str (s : String) : Bytes := s.data

/-- Go `strings.HasPrefix pre s` / `bytes.HasPrefix`, on char lists. -/
def startsWithL : Bytes → Bytes → Bool
  | [], _ => true
  | _ :: _, [] => false
  | p :: ps, c :: cs => p = c && startsWithL ps cs

/-- Go `strings.HasSuffix suf s` / `bytes.HasSuffix`, on char lists. -/
def endsWithL (suf s : Bytes) : Bool :=
  startsWithL suf.reverse s.reverse

/-- Whether `c` is whitespace for Go's `unicode.IsSpace` (Latin-1 range;
higher White_Space code points do not occur in this development). -/
def isGoSpace (c : Char) : Bool :=
  c.toNat = 32 || c.toNat = 9 || c.toNat = 10 || c.toNat = 11 ||
  c.toNat = 12 || c.toNat = 13 || c.toNat = 133 || c.toNat = 160

/-- Go `strings.TrimSpace`: strip leading and trailing whitespace. -/
def trimSpaceL (s : Bytes) : Bytes :=
  ((s.dropWhile isGoSpace).reverse.dropWhile isGoSpace).reverse

/-- Split at the first `'\n'`: `some (line, rest)` where `line` excludes the
newline, or `none` when the list has no newline (Go `bytes.IndexByte b '\n'`
returning `-1`). -/
def splitAtNL : Bytes → Option (Bytes × Bytes)
  | [] => none
  | c :: rest =>
    if c = '\n' then some ([], rest)
    else
      match splitAtNL rest with
      | none => none
      | some (l, r) => some (c :: l, r)

/-- Split a char list on a separator character, keeping empty pieces
(Go `strings.Split`-like; used for path segments). -/
def splitOnChar (sep : Char) : Bytes → List Bytes
  | [] => [[]]
  | c :: rest =>
    match splitOnChar sep rest with
    | [] => [[]]
    | y :: ys => if c = sep then [] :: y :: ys else (c :: y) :: ys

/-! ## Path cleaning (Go `path.Clean`) and safening (`archiver.go`) -/

/-- One step of `path.Clean`'s segment processing: the standard stack
formulation of Go's lexical cleaning (the stack head is the most recent
segment).  Empty and `"."` segments are dropped; `".."` pops a previous
segment, is dropped at the root of a rooted path, and is kept (pushed) in an
unrooted path with nothing left to pop. -/
def cleanStep (rooted : Bool) (stack : List Bytes) (seg : Bytes) : List Bytes :=
  if seg = [] ∨ seg = ['.'] then stack
  else if seg = ['.', '.'] then
    match stack with
    | [] => if rooted then [] else [seg]
    | top :: rest => if top = ['.', '.'] then seg :: stack else rest
  else seg :: stack

/-- The cleaned segment list of a path, in order (Go `path.Clean`'s loop). -/
def cleanSegs (rooted : Bool) (segs : List Bytes) : List Bytes :=
  (segs.foldl (cleanStep rooted) []).reverse

/-- Go `path.Clean` (equally `filepath.Clean` for slash-separated paths):
lexically normalize a path, resolving `.`, `..` and repeated separators. -/
def pathClean (p : Bytes) : Bytes :=
  if p = [] then ['.']
  else
    let rooted := startsWithL ['/'] p
    let segs := cleanSegs rooted (splitOnChar '/' p)
    let joined := (segs.intersperse ['/']).flatten
    if rooted then '/' :: joined
    else if joined = [] then ['.'] else joined

/-- Go `strings.TrimLeft p "/"`: drop every leading slash. -/
def trimLeftSlash (p : Bytes) : Bytes := p.dropWhile (· = '/')

/-- `Archiver.maybeSafenPath` (`archiver.go`): when `UnsafePaths` is unset,
prefix a path that starts with `".."` with `"/"` (the "hack to remove leading
../'s"), `path.Clean` it, strip leading slashes, and turn an empty result into
`"."`.  When `UnsafePaths` is set, the path is returned unchanged. -/
def maybeSafenPath (unsafePaths : Bool) (p : Bytes) : Bytes :=
  if unsafePaths then p
  else
    let p1 := if startsWithL (str "..") p then '/' :: p else p
    let p2 := pathClean p1
    let p3 := trimLeftSlash p2
    if p3 = [] then ['.'] else p3

/-- `Archiver.ToHostPath` (`archiver.go`): `filepath.FromSlash` after
safening.  `FromSlash` is the identity on systems whose separator is `'/'`
(the modelled platform), so this is `maybeSafenPath`. -/
def toHostPath (unsafePaths : Bool) (p : Bytes) : Bytes :=
  maybeSafenPath unsafePaths p

/-- `Archiver.FromHostPath` (`archiver.go`): safening after
`filepath.ToSlash`, which likewise is the identity here. -/
def fromHostPath (unsafePaths : Bool) (p : Bytes) : Bytes :=
  maybeSafenPath unsafePaths p

/-! ## The txtar wire format (`golang.org/x/tools/txtar`)

The archiver delegates encoding/decoding to the external `txtar` package
(`txtar.Format` / `txtar.Parse`); the spec treats that marker-line format as a
given external primitive, so it is embedded here from that package's code. -/

/-- An archive entry: `txtar.File{Name, Data}`.  Names are byte strings like
everything else. -/
abbrev Entry := Bytes × Bytes

/-- `txtar` marker-line opener `"-- "`. -/
def markerPre : Bytes := str "-- "

/-- `txtar` marker-line closer `" --"`. -/
def markerClose : Bytes := str " --"

/-- `txtar.fixNL`: append a final newline unless the data is empty or already
newline-terminated. -/
def fixNL (d : Bytes) : Bytes :=
  if d = [] ∨ d.getLast? = some '\n' then d else d ++ ['\n']

/-- Go slice `b[: len b - 3]` used by `txtar.isMarker` to cut `" --"`. -/
def dropLast3 (b : Bytes) : Bytes := b.take (b.length - 3)

/-- `txtar.isMarker`, restricted to the cases its caller uses: `some (name,
after)` when `data` opens with a marker line carrying a nonempty
(space-trimmed) name; `none` otherwise (the caller treats an empty trimmed
name exactly like a non-marker, so that case is folded into `none`). -/
def markerName? (data : Bytes) : Option (Bytes × Bytes) :=
  if startsWithL markerPre data then
    let cut := match splitAtNL data with
      | some (line, rest) => (line, rest)
      | none => (data, ([] : Bytes))
    if endsWithL markerClose cut.1 && decide (6 ≤ cut.1.length) then
      let nm := trimSpaceL (dropLast3 (cut.1.drop 3))
      if nm = [] then none else some (nm, cut.2)
    else none
  else none

/-- The line-scanning loop of `txtar.findFileMarker`, one character at a time.
`atStart` records whether the scan is at the beginning of a line (only there
is a marker recognized).  Returns `(before, name, after)`: the bytes before
the next marker line (with `fixNL` applied when the end of input is reached,
as in Go), the marker's trimmed name (`[]` when no further marker exists) and
the bytes after the marker line. -/
def ffmAux : Bytes → Bool → Bytes × Bytes × Bytes
  | [], atStart => (if atStart then [] else ['\n'], [], [])
  | c :: rest, atStart =>
    match (if atStart then markerName? (c :: rest) else none) with
    | some (n, a) => ([], n, a)
    | none =>
      let r := ffmAux rest (c = '\n')
      (c :: r.1, r.2.1, r.2.2)

/-- `txtar.findFileMarker`: scan from a line start. -/
def findFileMarker (data : Bytes) : Bytes × Bytes × Bytes :=
  ffmAux data true

/-- The entry-reading loop of `txtar.Parse`, with explicit fuel (each found
marker strictly shrinks the remaining input, so `data.length + 1` fuel always
suffices; the fuel-exhausted branch is unreachable from `txtarParse`). -/
def parseFilesF : Nat → Bytes → Bytes → List Entry
  | 0, name, data => [(name, data)]
  | fuel + 1, name, data =>
    let r := findFileMarker data
    if r.2.1 = [] then [(name, r.1)]
    else (name, r.1) :: parseFilesF fuel r.2.1 r.2.2

/-- `txtar.Parse`: the comment is everything before the first marker line;
each subsequent marker line starts a named entry running to the next marker
line or end of input. -/
def txtarParse (data : Bytes) : Bytes × List Entry :=
  let r := findFileMarker data
  (r.1, if r.2.1 = [] then [] else parseFilesF (r.2.2.length + 1) r.2.1 r.2.2)

/-- `txtar.Format`: the `fixNL`ed comment followed, for each entry, by the
marker line `"-- name --\n"` and the `fixNL`ed data. -/
def txtarFormat (comment : Bytes) (files : List Entry) : Bytes :=
  fixNL comment ++
    files.flatMap (fun f => markerPre ++ f.1 ++ markerClose ++ '\n' :: fixNL f.2)

/-! ## Create: collection, dedup, and emission (`internal/archiver/create.go`) -/

/-- The entry-update step of `Archiver.addToArchive` (`create.go`): *"Add this
file, removing any previous ones with the same name first"* —
`slices.DeleteFunc` drops every entry whose `Name` equals the new path, then
the new entry is appended. -/
def upsert (es : List Entry) (v : Entry) : List Entry :=
  es.filter (fun e => decide (e.1 ≠ v.1)) ++ [v]

/-- The accumulated entry list after `addToArchive` has appended the given
visits (pairs of already-converted archive name and read data) in traversal
order, starting from an empty archive. -/
def collectEntries (visits : List Entry) : List Entry :=
  visits.foldl upsert []

/-- The spec's description of the dedup rule, written from its words (§4.3 /
claim C3): keep each visit only if no later visit has the same name, so the
last occurrence in traversal order survives, carrying its own data, at the
position of its final occurrence. -/
def keepLastSpec : List Entry → List Entry
  | [] => []
  | e :: rest =>
    if rest.any (fun f => decide (f.1 = e.1)) then keepLastSpec rest
    else e :: keepLastSpec rest

/-- `Archiver.Create`'s emission (`create.go`): format the built archive with
`txtar.Format` and pass the bytes through the gzip writer exactly when
`WithGzip` is set.  The compressor itself is external (`compress/gzip`), so it
is a parameter `gz`; the payload handed to it does not depend on the flag. -/
def createBytes (withGzip : Bool) (gz : Bytes → Bytes)
    (comment : Bytes) (entries : List Entry) : Bytes :=
  (if withGzip then gz else id) (txtarFormat comment entries)

/-- The read side of the gzip wrapping in `ListOrExtract`
(`listextract.go`): gunzip the input exactly when `WithGzip` is set, then
`txtar.Parse` it. -/
def decodeBytes (withGzip : Bool) (gunz : Bytes → Bytes) (b : Bytes) :
    Bytes × List Entry :=
  txtarParse ((if withGzip then gunz else id) b)

/-! ## The legacy `main`-package Create (`create.go`, 2023: `unnamed/part_000`) -/

/-- Strip one trailing `'\r'` (Go `bufio.ScanLines`'s `dropCR`). -/
def dropCR (l : Bytes) : Bytes :=
  if l.getLast? = some '\r' then l.dropLast else l

/-- The token sequence of Go's `bufio.Scanner` with `ScanLines`: split on
`'\n'`, drop a final empty piece (no token after a trailing newline or for
empty input), and strip one trailing `'\r'` from each line. -/
def scanLines (s : Bytes) : List Bytes :=
  let segs := splitOnChar '\n' s
  (if segs.getLast? = some [] then segs.dropLast else segs).map dropCR

/-- `hasMarkerLine` (legacy `create.go`): some scanned line starts with
`"-- "` and ends with `" --"`. -/
def hasMarkerLine (s : Bytes) : Bool :=
  (scanLines s).any (fun l => startsWithL markerPre l && endsWithL markerClose l)

/-- The legacy `Create` (`create.go`, 2023): refuse with an error when the
comment has a txtar marker line, before anything is emitted; otherwise emit
the `txtar.Format` bytes (entries are the files its walk collected). -/
def legacyCreateBytes (comment : Bytes) (entries : List Entry) :
    Except Bytes Bytes :=
  if hasMarkerLine comment then
    .error (str "comment cannot have a txtar marker line")
  else .ok (txtarFormat comment entries)

/-! ## The walk (`Archiver.addToArchive` over `fs.WalkDir`) -/

/-- What `fs.WalkDir` feeds the walk callback for one node: either a visit
error (`err != nil`, `d` unusable) or a node with its path, whether it is a
regular file, and — for regular files the callback goes on to read — the read
result (`none` models a failing `os.ReadFile`/`fs.ReadFile`). -/
inductive WEvent where
  | visitErr (path : Bytes)
  | node (path : Bytes) (isRegular : Bool) (readData : Option Bytes)
deriving DecidableEq, Repr

/-- The errors the walk callback returns: the visit error itself, or the
wrapped read error `"reading %s: %w"`. -/
inductive WalkErr where
  | visit (path : Bytes)
  | read (path : Bytes)
deriving DecidableEq, Repr

/-- The walk callback `wdf` of `Archiver.addToArchive` (`create.go`), acting
on the accumulating entry list: exclusion is checked first (*"to provide a
nice way to not error out on unreadable directories"*), so an excluded node —
even a failing one — is skipped with `nil`; then a visit error is returned
(aborting the walk); non-regular files are skipped; a read failure is
returned; otherwise the file is appended under its `FromHostPath` name after
deleting same-named entries.  `excl` is the compiled `isExcluded` predicate
(globs then regexes). -/
def wdfStep (excl : Bytes → Bool) (unsafePaths : Bool) (ta : List Entry) :
    WEvent → Except WalkErr (List Entry)
  | .visitErr p => if excl p then .ok ta else .error (.visit p)
  | .node p isReg rd =>
    if excl p then .ok ta
    else if !isReg then .ok ta
    else
      match rd with
      | none => .error (.read p)
      | some d => .ok (upsert ta (fromHostPath unsafePaths p, d))

/-- `fs.WalkDir` driving `wdf` over a visit sequence: a returned error stops
the walk (the callback never returns `fs.SkipDir`/`fs.SkipAll`). -/
def runWalk (excl : Bytes → Bool) (unsafePaths : Bool) :
    List Entry → List WEvent → Except WalkErr (List Entry)
  | ta, [] => .ok ta
  | ta, e :: rest =>
    match wdfStep excl unsafePaths ta e with
    | .error m => .error m
    | .ok ta' => runWalk excl unsafePaths ta' rest

/-- An error-free file tree, for the directory-walk claims: a regular file
with its content, or a directory with its children in directory order. -/
inductive FTree where
  | file (name : Bytes) (data : Bytes)
  | dir (name : Bytes) (children : List FTree)
deriving Repr

/-- `path.Join(parent, name)` for the clean components the walk produces. -/
def childPath (parent name : Bytes) : Bytes :=
  if parent = [] then name else parent ++ '/' :: name

mutual

/-- The visit sequence `fs.WalkDir` produces for a tree rooted at
`childPath parent (name t)`: the node itself, then (for a directory) its
children depth-first.  A directory's callback returning `nil` does *not*
prune: `fs.WalkDir` still descends, so children events always follow. -/
def treeEvents (parent : Bytes) : FTree → List WEvent
  | .file n d => [.node (childPath parent n) true (some d)]
  | .dir n cs =>
    .node (childPath parent n) false none :: forestEvents (childPath parent n) cs

/-- `treeEvents` over a list of siblings, in order. -/
def forestEvents (parent : Bytes) : List FTree → List WEvent
  | [] => []
  | t :: ts => treeEvents parent t ++ forestEvents parent ts

end

mutual

/-- Every regular file of the tree with its full path, in walk order. -/
def regFiles (parent : Bytes) : FTree → List Entry
  | .file n d => [(childPath parent n, d)]
  | .dir n cs => regFilesForest (childPath parent n) cs

/-- `regFiles` over a list of siblings, in order. -/
def regFilesForest (parent : Bytes) : List FTree → List Entry
  | [] => []
  | t :: ts => regFiles parent t ++ regFilesForest parent ts

end

/-! ## List / Extract (`internal/archiver/listextract.go`) -/

/-- The possible outcomes of the output-selection `switch` at the end of
`Archiver.extractFromArchive`: print the filename, print size and filename,
print nothing, or hit the `default` branch that panics
(`"BUG: Unpossible combination of verbose and doExtract"`). -/
inductive PrintKind where
  | filename
  | sizeAndFilename
  | nothing
  | panicBug
deriving DecidableEq, Repr

/-- The output-selection `switch` of `extractFromArchive`
(`listextract.go`), with its cases in source order:
`a.Verbose && doExtract, !a.Verbose && !doExtract` → filename;
`a.Verbose && !doExtract` → size and filename;
`!a.Verbose && doExtract` → nothing; `default` → panic. -/
def outputChoice (verbose doExtract : Bool) : PrintKind :=
  if (verbose && doExtract) || (!verbose && !doExtract) then .filename
  else if verbose && !doExtract then .sizeAndFilename
  else if !verbose && doExtract then .nothing
  else .panicBug

/-- One observable action of a List/Extract run: a line printed to the
listing writer, or a file written to disk. -/
inductive OutAct where
  | print (line : Bytes)
  | printSize (size : Nat) (line : Bytes)
  | write (path : Bytes) (data : Bytes)
deriving DecidableEq, Repr

/-- Go `filepath.Dir`: everything up to (and including) the last separator,
cleaned; `"."` when there is no separator. -/
def dirOf (p : Bytes) : Bytes :=
  let tailLen := (p.reverse.takeWhile (· ≠ '/')).length
  if tailLen = p.length then ['.'] else pathClean (p.take (p.length - tailLen))

/-- Go `filepath.Join where hn` as used by `extractFromArchive`: empty
components are dropped and the result is cleaned. -/
def joinPath (whereDir hn : Bytes) : Bytes :=
  if whereDir = [] then pathClean hn else pathClean (whereDir ++ '/' :: hn)

/-- The per-run configuration of `Archiver.ListOrExtract`: the compiled
exclusion predicate `excl` (`isExcluded`), the glob matcher `globMatch g hn`
(`filepath.Match`, assumed well-formed so it never errors), the requested
paths, flags, extraction directory, and oracles giving the outcome of
`os.MkdirAll` on a directory and `os.WriteFile` on a file (`some e` = the
error `e`). -/
structure LXConfig where
  excl : Bytes → Bool
  globMatch : Bytes → Bytes → Bool
  paths : List Bytes
  unsafePaths : Bool
  verbose : Bool
  whereDir : Bytes
  mkdirErr : Bytes → Option Bytes
  writeErr : Bytes → Option Bytes

/-- `Archiver.extractFromArchive` (`listextract.go`) for one entry `f`:
compute the host name; skip excluded entries; with a non-empty requested-path
list, skip entries matching none of its globs; when extracting, create the
parent directory and write the file (either failure is returned, aborting the
operation); finally print according to `outputChoice`.  Returns the actions
in order, or the error. -/
def extractEntry (cfg : LXConfig) (doExtract : Bool) (f : Entry) :
    Except Bytes (List OutAct) :=
  let hn := toHostPath cfg.unsafePaths f.1
  if cfg.excl hn then .ok []
  else if cfg.paths ≠ [] ∧ ¬ cfg.paths.any (fun g => cfg.globMatch g hn) then
    .ok []
  else
    let tail :=
      match outputChoice cfg.verbose doExtract with
      | .filename => Except.ok [OutAct.print hn]
      | .sizeAndFilename => Except.ok [OutAct.printSize f.2.length hn]
      | .nothing => Except.ok []
      | .panicBug =>
        Except.error (str "BUG: Unpossible combination of verbose and doExtract")
    if doExtract then
      let fn := joinPath cfg.whereDir hn
      match cfg.mkdirErr (dirOf fn) with
      | some e => .error (str "creating directory " ++ dirOf fn ++ str ": " ++ e)
      | none =>
        match cfg.writeErr fn with
        | some e => .error (str "writing " ++ hn ++ str ": " ++ e)
        | none =>
          match tail with
          | .ok acts => .ok (OutAct.write fn f.2 :: acts)
          | .error e => .error e
    else tail

/-- The entry loop of `Archiver.ListOrExtract`: process entries in order,
concatenating their actions; an entry error is wrapped as
`"processing %s: %w"` and aborts the run. -/
def runEntries (cfg : LXConfig) (doExtract : Bool) :
    List Entry → Except Bytes (List OutAct)
  | [] => .ok []
  | f :: rest =>
    match extractEntry cfg doExtract f with
    | .error m => .error (str "processing " ++ f.1 ++ str ": " ++ m)
    | .ok acts =>
      match runEntries cfg doExtract rest with
      | .error m => .error m
      | .ok more => .ok (acts ++ more)

/-- `Archiver.ListOrExtract` (`listextract.go`) from the archive bytes on:
gunzip when `WithGzip` is set, `txtar.Parse`, print the comment when verbose
(`"-No Comment-\n\n"` for an empty one), then run the entry loop. -/
def listOrExtractRun (withGzip : Bool) (gunz : Bytes → Bytes)
    (cfg : LXConfig) (doExtract : Bool) (b : Bytes) :
    Except Bytes (List OutAct) :=
  let ar := decodeBytes withGzip gunz b
  let commentActs : List OutAct :=
    if cfg.verbose ∧ ar.1.length = 0 then [.print (str "-No Comment-\n\n")]
    else if cfg.verbose then [.print (ar.1 ++ ['\n'])]
    else []
  match runEntries cfg doExtract ar.2 with
  | .error m => .error m
  | .ok acts => .ok (commentActs ++ acts)

/-! ## The legacy `main`-package Extract (`extract.go`, 2023) -/

/-- One iteration of the legacy `Extract` loop (`extract.go`): with a
non-empty requested list, skip entries whose name is not a requested path and
mark matched names as seen (marking happens before the exclusion check); then
skip excluded entries; otherwise act on the entry.  The state is the list of
marked names and the entries acted upon, in order. -/
def oldStep (req : List Bytes) (excl : Bytes → Bool)
    (st : List Bytes × List Entry) (f : Entry) : List Bytes × List Entry :=
  if req ≠ [] then
    if f.1 ∈ req then
      (f.1 :: st.1, if excl f.1 then st.2 else st.2 ++ [f])
    else st
  else (st.1, if excl f.1 then st.2 else st.2 ++ [f])

/-- The legacy `Extract` (`extract.go`): process each archive entry with
`oldStep`, then report — as one aggregated, non-fatal `Errorf` — every
requested path that was never marked (`Extract` itself always returns `nil`).
Result: `(entries acted upon, unmatched requested paths)`. -/
def oldExtract (req : List Bytes) (excl : Bytes → Bool)
    (entries : List Entry) : List Entry × List Bytes :=
  let st := entries.foldl (oldStep req excl) ([], [])
  (st.2, req.filter (fun r => decide (r ∉ st.1)))

/-! ## Predicates used to state the claims -/

/-- Whether a path begins with a parent-directory segment: it is `".."`
itself or starts with `"../"`. -/
def beginsDotDot (s : Bytes) : Bool :=
  decide (s = str "..") || startsWithL (str "../") s

/-- A name that survives a round trip through its marker line: nonempty,
newline-free, and unchanged by `strings.TrimSpace`. -/
def ValidName (n : Bytes) : Prop :=
  n ≠ [] ∧ '\n' ∉ n ∧ trimSpaceL n = n

/-- Text that decodes unchanged: a sequence of newline-terminated lines none
of which is a marker-line collision in the spec's sense (a line beginning
with `"-- "` and ending with `" --"`). -/
inductive SafeText : Bytes → Prop
  | nil : SafeText []
  | cons (line rest : Bytes) : '\n' ∉ line →
      ¬(startsWithL markerPre line = true ∧ endsWithL markerClose line = true) →
      SafeText rest → SafeText (line ++ '\n' :: rest)

/-- The test `txtar.isMarker` applies to one (newline-free) line. -/
def isMarkerLineB (line : Bytes) : Bool :=
  startsWithL markerPre line && endsWithL markerClose line &&
  decide (6 ≤ line.length) &&
  decide (trimSpaceL (dropLast3 (line.drop 3)) ≠ [])

/-! # Theorems -/

/-! ## Dedup: `upsert` folds compute keep-last (claims C3, C9) -/

/-- Folding `upsert` over a visit list computes keep-last dedup: surviving
accumulator entries are those whose name never reappears, followed by the
keep-last reduction of the visits. -/
theorem foldl_upsert_eq (l : List Entry) : ∀ acc : List Entry,
    l.foldl upsert acc =
      acc.filter (fun e => !(l.any (fun f => decide (f.1 = e.1)))) ++
        keepLastSpec l := by
  induction l with
  | nil => intro acc; simp [keepLastSpec]
  | cons x rest ih =>
    intro acc
    rw [List.foldl_cons, ih (upsert acc x)]
    unfold upsert
    rw [List.filter_append, List.filter_filter]
    have hx : List.filter
          (fun a => (!(rest.any fun f => decide (f.1 = a.1))) &&
            decide (a.1 ≠ x.1)) acc =
        List.filter (fun e => !((x :: rest).any fun f => decide (f.1 = e.1)))
          acc := by
      apply List.filter_congr
      intro e _
      by_cases h : e.1 = x.1
      · simp [h]
      · have h2 : ¬ (x.1 = e.1) := fun hh => h hh.symm
        simp [h, h2]
    rw [hx]
    by_cases h : rest.any (fun f => decide (f.1 = x.1)) = true
    · simp [keepLastSpec, h, List.filter]
    · simp [keepLastSpec, h, List.filter]

/-- Claim C3: during Create, a revisited archive name's existing entry is
removed before the new one is appended, so the last occurrence in traversal
order wins, carries the latest read's data, and sits at the position of its
final occurrence — i.e. the accumulated entry list of `addToArchive`
(`collectEntries`, folding the `slices.DeleteFunc`-then-append step) equals
the keep-last reduction of the visits (`keepLastSpec`, written from the
spec's words). -/
theorem c3_dedup_keeps_last (visits : List Entry) :
    collectEntries visits = keepLastSpec visits := by
  unfold collectEntries
  rw [foldl_upsert_eq]
  simp

/-- Every entry kept by `keepLastSpec` was one of the visits. -/
theorem keepLastSpec_subset (l : List Entry) : keepLastSpec l ⊆ l := by
  induction l with
  | nil => simp [keepLastSpec]
  | cons e rest ih =>
    unfold keepLastSpec
    by_cases h : rest.any (fun f => decide (f.1 = e.1)) = true
    · simp only [h, if_pos]
      exact fun a ha => List.mem_cons_of_mem e (ih ha)
    · simp only [h, if_neg, Bool.not_eq_true]
      intro a ha
      rcases List.mem_cons.mp ha with rfl | ha'
      · exact List.mem_cons_self _ _
      · exact List.mem_cons_of_mem e (ih ha')

/-- The names of `keepLastSpec`'s output never repeat. -/
theorem keepLastSpec_names_nodup (l : List Entry) :
    ((keepLastSpec l).map Prod.fst).Nodup := by
  induction l with
  | nil => simp [keepLastSpec]
  | cons e rest ih =>
    unfold keepLastSpec
    by_cases h : rest.any (fun f => decide (f.1 = e.1)) = true
    · simpa [h]
    · simp only [h, if_neg, Bool.not_eq_true, List.map_cons, List.nodup_cons]
      refine ⟨?_, ih⟩
      intro hmem
      rcases List.mem_map.mp hmem with ⟨f, hf, hfe⟩
      have hfr : f ∈ rest := keepLastSpec_subset rest hf
      have : rest.any (fun f => decide (f.1 = e.1)) = true :=
        List.any_eq_true.mpr ⟨f, hfr, by simpa using hfe⟩
      exact h this

/-- The fold of `addToArchive` updates from the empty archive is exactly
keep-last dedup. -/
theorem collect_eq_keepLast (visits : List Entry) :
    collectEntries visits = keepLastSpec visits := by
  unfold collectEntries
  rw [foldl_upsert_eq]
  simp

/-- Claim C9: at every step of Create's collection the accumulating entry
list has at most one entry per `Name` — the entry list `collectEntries`
builds from any visit sequence has pairwise-distinct names, and a single
`addToArchive` update (`upsert`) preserves that invariant. -/
theorem c9_names_unique :
    (∀ visits : List Entry, ((collectEntries visits).map Prod.fst).Nodup) ∧
    (∀ (es : List Entry) (v : Entry), ((es.map Prod.fst).Nodup) →
      (((upsert es v).map Prod.fst).Nodup)) := by
  constructor
  · intro visits
    rw [collect_eq_keepLast]
    exact keepLastSpec_names_nodup visits
  · intro es v hnd
    unfold upsert
    rw [List.map_append]
    rw [List.nodup_append]
    refine ⟨?_, by simp, ?_⟩
    · have hsub : List.Sublist
          ((es.filter (fun e => decide (e.1 ≠ v.1))).map Prod.fst)
          (es.map Prod.fst) := (List.filter_sublist es).map Prod.fst
      exact hnd.sublist hsub
    · intro n hn hn2
      simp only [List.map_cons, List.map_nil, List.mem_singleton] at hn2
      subst hn2
      rcases List.mem_map.mp hn with ⟨f, hf, hfe⟩
      have := (List.mem_filter.mp hf).2
      rw [hfe] at this
      simp at this

/-! ## Claim C10: the output-selection switch never panics -/

/-- Claim C10: for every combination of the `Verbose` flag and the
`doExtract` argument, the output-selection switch at the end of
`extractFromArchive` takes one of its three explicit branches (filename; size
and filename; nothing); the `default` branch that panics is unreachable. -/
theorem c10_switch_total : ∀ verbose doExtract : Bool,
    outputChoice verbose doExtract ≠ PrintKind.panicBug := by
  decide

/-! ## Claim C8: exclusion always wins -/

/-- Claim C8: a path matching a configured exclusion is never collected by
Create — its walk event leaves the accumulating archive untouched, whether it
is a node or a visit error — and never listed or extracted by
`ListOrExtract` — `extractFromArchive` returns no action for it, for every
requested-path list. -/
theorem c8_exclusion_wins :
    (∀ (excl : Bytes → Bool) (uP : Bool) (ta : List Entry) (p : Bytes)
      (isReg : Bool) (rd : Option Bytes), excl p = true →
      wdfStep excl uP ta (.node p isReg rd) = .ok ta ∧
      wdfStep excl uP ta (.visitErr p) = .ok ta) ∧
    (∀ (cfg : LXConfig) (doExtract : Bool) (f : Entry),
      cfg.excl (toHostPath cfg.unsafePaths f.1) = true →
      extractEntry cfg doExtract f = .ok []) := by
  constructor
  · intro excl uP ta p isReg rd h
    constructor <;> simp [wdfStep, h]
  · intro cfg doExtract f h
    simp [extractEntry, h]

/-! ## Claim C4: the marker-line refusal -/

/-- Claim C4 counterexample: the archiver engine's `Create`
(`internal/archiver/create.go`) performs no comment validation.  For the
comment `"-- x --\n"` — which has a marker-line collision
(`hasMarkerLine` = true), so the claim says Create must return an error and
emit no bytes — `createBytes` emits `"-- x --\n"` unconditionally (its model
is total: `Archiver.Create` has no comment-failure path at all), and those
bytes even decode to a mangled archive whose comment is empty and which has a
phantom entry `"x"`. -/
theorem c4_cex :
    hasMarkerLine (str "-- x --\n") = true ∧
    createBytes false id (str "-- x --\n") [] = str "-- x --\n" ∧
    txtarParse (str "-- x --\n") = ([], [(str "x", [])]) := by
  decide

/-- Claim C4 amended: the refusal the claim describes is the legacy
`main`-package `Create`'s (`create.go`, 2023, = `unnamed/part_000`): that
`Create` returns an error exactly when the comment has a line beginning with
`"-- "` and ending with `" --"`, before emitting anything, and comments
without such a line are never refused.  The current archiver engine's
`Create` performs no such validation: it emits the `txtar.Format` bytes for
every comment. -/
theorem c4_amended :
    (∀ (withGzip : Bool) (gz : Bytes → Bytes) (c : Bytes) (es : List Entry),
      createBytes withGzip gz c es =
        (if withGzip then gz else id) (txtarFormat c es)) ∧
    (∀ (c : Bytes) (es : List Entry),
      (∃ e, legacyCreateBytes c es = .error e) ↔ hasMarkerLine c = true) := by
  constructor
  · intro withGzip gz c es
    rfl
  · intro c es
    unfold legacyCreateBytes
    by_cases h : hasMarkerLine c = true
    · simp [h]
    · simp [h]

/-! ## Walk helpers (claims C5, C6) -/

/-- Splitting a walk: the walk of a concatenated event sequence runs the
first part and, if it survives, continues with the second from the
accumulated archive. -/
theorem runWalk_append (excl : Bytes → Bool) (uP : Bool) (e₂ : List WEvent) :
    ∀ (e₁ : List WEvent) (ta : List Entry),
    runWalk excl uP ta (e₁ ++ e₂) =
      match runWalk excl uP ta e₁ with
      | .ok ta' => runWalk excl uP ta' e₂
      | .error m => .error m := by
  intro e₁
  induction e₁ with
  | nil => intro ta; simp [runWalk]
  | cons e rest ih =>
    intro ta
    simp only [List.cons_append, runWalk]
    cases h : wdfStep excl uP ta e with
    | error m => rfl
    | ok ta' => exact ih ta'

/-- Splitting the List/Extract entry loop similarly. -/
theorem runEntries_append (cfg : LXConfig) (doExtract : Bool)
    (es₂ : List Entry) : ∀ es₁ : List Entry,
    runEntries cfg doExtract (es₁ ++ es₂) =
      match runEntries cfg doExtract es₁ with
      | .ok acts =>
        (match runEntries cfg doExtract es₂ with
         | .ok more => .ok (acts ++ more)
         | .error m => .error m)
      | .error m => .error m := by
  intro es₁
  induction es₁ with
  | nil =>
    simp only [List.nil_append]
    cases h : runEntries cfg doExtract es₂ with
    | error m => simp [runEntries, h]
    | ok more => simp [runEntries, h]
  | cons f rest ih =>
    simp only [List.cons_append, runEntries, List.append_eq]
    cases h : extractEntry cfg doExtract f with
    | error m => rfl
    | ok acts =>
      rw [ih]
      cases h2 : runEntries cfg doExtract rest with
      | error m => rfl
      | ok more =>
        cases h3 : runEntries cfg doExtract es₂ with
        | error m => rfl
        | ok m2 => simp

/-! ## Claim C5: per-entity failures -/

/-- Claim C5 counterexample: a single failing entity aborts the whole
operation.  With no exclusions, a walk whose first event is a visit error on
`"x"` returns that error and never collects the perfectly readable file `"y"`
that follows — the claim says the error is reported and the traversal
continues with `"y"`. -/
theorem c5_cex :
    runWalk (fun _ => false) false []
        [WEvent.visitErr (str "x"), WEvent.node (str "y") true (some (str "d"))] =
      .error (.visit (str "x")) := by
  rfl

/-- Claim C5 amended: per-entity failures are fatal, not reported-and-skipped,
in the archiver engine.  During Create's walk a visit error on a
*non-excluded* path aborts the walk with that error (an *excluded* failing
path is skipped, since exclusion is checked first), and a read failure on a
regular file likewise aborts; during extraction, a failing entry
(directory-creation or file-write error) aborts `ListOrExtract` with the
wrapped error.  (The legacy 2023 tool reported such errors and continued;
that is the behaviour the claim describes.) -/
theorem c5_failures_fatal :
    (∀ (excl : Bytes → Bool) (uP : Bool) (ta ta' : List Entry)
      (evs₁ evs₂ : List WEvent) (p : Bytes),
      runWalk excl uP ta evs₁ = .ok ta' → excl p = false →
      runWalk excl uP ta (evs₁ ++ WEvent.visitErr p :: evs₂) =
        .error (.visit p)) ∧
    (∀ (excl : Bytes → Bool) (uP : Bool) (ta ta' : List Entry)
      (evs₁ evs₂ : List WEvent) (p : Bytes),
      runWalk excl uP ta evs₁ = .ok ta' → excl p = false →
      runWalk excl uP ta (evs₁ ++ WEvent.node p true none :: evs₂) =
        .error (.read p)) ∧
    (∀ (excl : Bytes → Bool) (uP : Bool) (ta ta' : List Entry)
      (evs₁ evs₂ : List WEvent) (p : Bytes),
      runWalk excl uP ta evs₁ = .ok ta' → excl p = true →
      runWalk excl uP ta (evs₁ ++ WEvent.visitErr p :: evs₂) =
        runWalk excl uP ta' evs₂) ∧
    (∀ (cfg : LXConfig) (doExtract : Bool) (es₁ es₂ : List Entry) (f : Entry)
      (acts : List OutAct) (m : Bytes),
      runEntries cfg doExtract es₁ = .ok acts →
      extractEntry cfg doExtract f = .error m →
      runEntries cfg doExtract (es₁ ++ f :: es₂) =
        .error (str "processing " ++ f.1 ++ str ": " ++ m)) := by
  refine ⟨?_, ?_, ?_, ?_⟩
  · intro excl uP ta ta' evs₁ evs₂ p h1 h2
    rw [runWalk_append, h1]
    simp [runWalk, wdfStep, h2]
  · intro excl uP ta ta' evs₁ evs₂ p h1 h2
    rw [runWalk_append, h1]
    simp [runWalk, wdfStep, h2]
  · intro excl uP ta ta' evs₁ evs₂ p h1 h2
    rw [runWalk_append, h1]
    simp [runWalk, wdfStep, h2]
  · intro cfg doExtract es₁ es₂ f acts m h1 h2
    rw [runEntries_append, h1]
    simp [runEntries, h2]

/-! ## Claim C6: exclusion filters, it does not prune -/

mutual

/-- Walking a tree collects exactly its regular files whose own path is not
excluded, in walk order, regardless of exclusions on enclosing directories:
the callback returns `nil` for an excluded directory (never `fs.SkipDir`), so
`fs.WalkDir` still descends into it. -/
theorem walkTree_eq (excl : Bytes → Bool) (uP : Bool) (parent : Bytes)
    (t : FTree) (ta : List Entry) :
    runWalk excl uP ta (treeEvents parent t) =
      .ok (((regFiles parent t).filter (fun v => !(excl v.1))).foldl
        (fun acc v => upsert acc (fromHostPath uP v.1, v.2)) ta) := by
  cases t with
  | file n d =>
    simp only [treeEvents, regFiles, runWalk, wdfStep]
    by_cases h : excl (childPath parent n) = true
    · simp [h, List.filter]
    · simp [h, List.filter]
  | dir n cs =>
    simp only [treeEvents, regFiles, runWalk, wdfStep]
    by_cases h : excl (childPath parent n) = true
    · simp only [h, if_pos]
      exact walkForest_eq excl uP (childPath parent n) cs ta
    · simp only [h, Bool.not_eq_true, if_neg, Bool.not_false, if_pos]
      exact walkForest_eq excl uP (childPath parent n) cs ta

/-- `walkTree_eq` for a sibling list. -/
theorem walkForest_eq (excl : Bytes → Bool) (uP : Bool) (parent : Bytes)
    (ts : List FTree) (ta : List Entry) :
    runWalk excl uP ta (forestEvents parent ts) =
      .ok (((regFilesForest parent ts).filter (fun v => !(excl v.1))).foldl
        (fun acc v => upsert acc (fromHostPath uP v.1, v.2)) ta) := by
  cases ts with
  | nil => simp [forestEvents, regFilesForest, runWalk]
  | cons t rest =>
    simp only [forestEvents, regFilesForest]
    rw [runWalk_append, walkTree_eq excl uP parent t ta, List.filter_append,
      List.foldl_append]
    exact walkForest_eq excl uP parent rest _

end

/-- Claim C6 counterexample: pruning does not happen.  Excluding exactly the
directory path `"d"` (the compiled matcher of the exclusion glob `"d"`, which
contains no wildcards) while walking the tree `d/{f}` still collects the
descendant `d/f`, whose own path matches no exclusion — the claim says no
descendant of an excluded directory may be visited or collected. -/
theorem c6_cex :
    treeEvents [] (FTree.dir (str "d") [FTree.file (str "f") (str "x")]) =
      [WEvent.node (str "d") false none,
       WEvent.node (str "d/f") true (some (str "x"))] ∧
    runWalk (fun p => decide (p = str "d")) false []
        [WEvent.node (str "d") false none,
         WEvent.node (str "d/f") true (some (str "x"))] =
      .ok [(str "d/f", str "x")] := by
  constructor
  · simp [treeEvents, forestEvents, childPath]
    decide
  · rfl

/-- Claim C6 amended: when a directory's path matches a configured exclusion,
only that node itself is skipped; `fs.WalkDir` still visits its descendants
(the callback returns `nil`, not `fs.SkipDir`), and each descendant is
collected unless its own path matches an exclusion.  Equivalently, the walk
of any tree collects exactly the non-excluded regular files, in walk order —
filtering per node, not pruning. -/
theorem c6_filter_not_prune : ∀ (excl : Bytes → Bool) (uP : Bool)
    (parent : Bytes) (t : FTree),
    runWalk excl uP [] (treeEvents parent t) =
      .ok (((regFiles parent t).filter (fun v => !(excl v.1))).foldl
        (fun acc v => upsert acc (fromHostPath uP v.1, v.2)) []) :=
  fun excl uP parent t => walkTree_eq excl uP parent t []

/-! ## Claim C7: unmatched-path reporting -/

/-- Closed form of the legacy `Extract` loop under a non-empty requested
list: it marks the names of every requested entry (in reverse encounter
order) and acts on exactly the requested, non-excluded entries in order. -/
theorem oldStep_fold (req : List Bytes) (excl : Bytes → Bool) (h : req ≠ []) :
    ∀ (entries : List Entry) (m : List Bytes) (a : List Entry),
    entries.foldl (oldStep req excl) (m, a) =
      (((entries.filter (fun f => decide (f.1 ∈ req))).map Prod.fst).reverse ++ m,
       a ++ entries.filter (fun f => decide (f.1 ∈ req) && !(excl f.1))) := by
  have step : ∀ (st : List Bytes × List Entry) (g : Entry),
      oldStep req excl st g =
        if g.1 ∈ req then
          (g.1 :: st.1, if excl g.1 then st.2 else st.2 ++ [g])
        else st := by
    intro st g
    unfold oldStep
    rw [if_pos h]
  intro entries
  induction entries with
  | nil => intro m a; simp
  | cons f rest ih =>
    intro m a
    rw [List.foldl_cons, step (m, a) f]
    by_cases hf : f.1 ∈ req
    · rw [if_pos hf, ih]
      by_cases he : excl f.1 = true
      · simp [hf, he, List.filter_cons]
      · simp [hf, he, List.filter_cons]
    · rw [if_neg hf, ih]
      simp [hf, List.filter_cons]

/-- Claim C7 amended: the unmatched-path report the claim describes is the
legacy `main`-package `Extract`'s (`extract.go`, 2023): given a non-empty
requested list it still acts on every requested, non-excluded entry and
reports — as one aggregated non-fatal error — exactly the requested names
matching (by name equality) no entry of the archive.  The current archiver
engine's `ListOrExtract` performs no unmatched-path tracking at all (see the
counterexample). -/
theorem c7_unmatched_report (req : List Bytes) (excl : Bytes → Bool)
    (entries : List Entry) (h : req ≠ []) :
    (oldExtract req excl entries).2 =
      req.filter (fun r => !(decide (r ∈ entries.map Prod.fst))) ∧
    (oldExtract req excl entries).1 =
      entries.filter (fun f => decide (f.1 ∈ req) && !(excl f.1)) := by
  unfold oldExtract
  rw [oldStep_fold req excl h]
  constructor
  · apply List.filter_congr
    intro r hr
    simp only [List.append_nil, List.mem_reverse]
    have hiff : (r ∈ (entries.filter (fun f => decide (f.1 ∈ req))).map
        Prod.fst) ↔ r ∈ entries.map Prod.fst := by
      constructor
      · intro hmem
        rcases List.mem_map.mp hmem with ⟨f, hf, rfl⟩
        exact List.mem_map.mpr ⟨f, (List.mem_filter.mp hf).1, rfl⟩
      · intro hmem
        rcases List.mem_map.mp hmem with ⟨f, hf, rfl⟩
        exact List.mem_map.mpr
          ⟨f, List.mem_filter.mpr ⟨hf, by simpa using hr⟩, rfl⟩
    simp [hiff]
  · rfl

/-- Claim C7 counterexample: the archiver engine's `ListOrExtract` reports
nothing for unmatched requested paths.  A list run over an archive holding
only `"a"`, with requested path `"nope"` (matcher: the compiled glob, here
plain equality since `"nope"` has no wildcards), succeeds with *no* output at
all — in particular no aggregated report naming `"nope"`, which the claim
requires. -/
theorem c7_cex :
    listOrExtractRun false id
      ⟨fun _ => false, fun g hn => decide (g = hn), [str "nope"], false, false,
        [], fun _ => none, fun _ => none⟩ false
      (txtarFormat [] [(str "a", str "x\n")]) = .ok [] := by
  rfl

/-! ## Claim C1: path safening -/

/-- `splitOnChar` never returns the empty list. -/
theorem splitOnChar_ne_nil (sep : Char) (l : Bytes) :
    splitOnChar sep l ≠ [] := by
  cases l with
  | nil => simp [splitOnChar]
  | cons c rest =>
    simp only [splitOnChar]
    cases h : splitOnChar sep rest with
    | nil => simp
    | cons y ys =>
      by_cases hc : c = sep
      · simp [hc]
      · simp [hc]

/-- Unfolding `splitOnChar` on a cons, given the tail's split. -/
theorem splitOnChar_cons_eq (sep c : Char) (rest : Bytes) (y : Bytes)
    (ys : List Bytes) (h : splitOnChar sep rest = y :: ys) :
    splitOnChar sep (c :: rest) =
      if c = sep then [] :: y :: ys else (c :: y) :: ys := by
  simp [splitOnChar, h]

/-- Split pieces never contain the separator. -/
theorem splitOnChar_not_mem (sep : Char) :
    ∀ (l : Bytes) (x : Bytes), x ∈ splitOnChar sep l → sep ∉ x := by
  intro l
  induction l with
  | nil =>
    intro x hx
    simp [splitOnChar] at hx
    simp [hx]
  | cons c rest ih =>
    intro x hx
    cases h : splitOnChar sep rest with
    | nil => exact absurd h (splitOnChar_ne_nil sep rest)
    | cons y ys =>
      rw [splitOnChar_cons_eq sep c rest y ys h] at hx
      by_cases hc : c = sep
      · rw [if_pos hc] at hx
        rcases List.mem_cons.mp hx with rfl | hx'
        · simp
        · exact ih x (h ▸ hx')
      · rw [if_neg hc] at hx
        rcases List.mem_cons.mp hx with rfl | hx'
        · intro hmem
          rcases List.mem_cons.mp hmem with rfl | hmem'
          · exact hc rfl
          · exact ih y (h ▸ List.mem_cons_self y ys) hmem'
        · exact ih x (h ▸ List.mem_cons_of_mem y hx')

/-- The `path.Clean` stack invariant: starting from a stack of nonempty,
slash-free, non-`".."` segments, and fed slash-free segments (none of which
is `".."` unless the path is rooted), every segment on the stack stays
nonempty, slash-free and distinct from `".."`. -/
theorem cleanFold_good (rooted : Bool) :
    ∀ (segs : List Bytes) (stack : List Bytes),
    (∀ x ∈ stack, x ≠ [] ∧ '/' ∉ x ∧ x ≠ ['.', '.']) →
    (∀ x ∈ segs, '/' ∉ x) →
    (rooted = true ∨ ∀ x ∈ segs, x ≠ ['.', '.']) →
    ∀ x ∈ segs.foldl (cleanStep rooted) stack,
      x ≠ [] ∧ '/' ∉ x ∧ x ≠ ['.', '.'] := by
  intro segs
  induction segs with
  | nil =>
    intro stack hstack _ _
    simpa using hstack
  | cons s rest ih =>
    intro stack hstack hslash hdd
    rw [List.foldl_cons]
    apply ih
    · -- the new stack keeps the invariant
      intro x hx
      unfold cleanStep at hx
      by_cases h1 : s = [] ∨ s = ['.']
      · rw [if_pos h1] at hx
        exact hstack x hx
      · rw [if_neg h1] at hx
        by_cases h2 : s = ['.', '.']
        · rw [if_pos h2] at hx
          cases hst : stack with
          | nil =>
            rw [hst] at hx
            cases hr : rooted with
            | true => rw [hr] at hx; simp at hx
            | false =>
              rcases hdd with hdd | hdd
              · rw [hr] at hdd; simp at hdd
              · exact absurd h2 (hdd s (List.mem_cons_self s rest))
          | cons top stk =>
            rw [hst] at hx
            have htop := hstack top (hst ▸ List.mem_cons_self top stk)
            have hmx : (match top :: stk with
                | [] => if rooted = true then [] else [s]
                | top1 :: stk1 => if top1 = ['.', '.'] then s :: top :: stk
                    else stk1) = stk := by
              simp [htop.2.2]
            rw [hmx] at hx
            exact hstack x (hst ▸ List.mem_cons_of_mem top hx)
        · rw [if_neg h2] at hx
          rcases List.mem_cons.mp hx with rfl | hx'
          · refine ⟨?_, ?_, h2⟩
            · intro hnil
              exact h1 (Or.inl hnil)
            · exact hslash x (List.mem_cons_self x rest)
          · exact hstack x hx'
    · intro x hx
      exact hslash x (List.mem_cons_of_mem s hx)
    · rcases hdd with hdd | hdd
      · exact Or.inl hdd
      · exact Or.inr fun x hx => hdd x (List.mem_cons_of_mem s hx)

/-- Dropping leading slashes from something that does not start with a slash
changes nothing. -/
theorem dropWhile_slash_id (l : Bytes) (h : startsWithL ['/'] l = false) :
    l.dropWhile (· = '/') = l := by
  cases l with
  | nil => rfl
  | cons c rest =>
    have hc : ¬ (c = '/') := by
      intro hcc
      subst hcc
      simp [startsWithL] at h
    simp [List.dropWhile_cons, hc]

/-- After dropping leading slashes nothing starts with a slash. -/
theorem dropWhile_slash_no_slash (l : Bytes) :
    startsWithL ['/'] (l.dropWhile (· = '/')) = false := by
  induction l with
  | nil => rfl
  | cons c rest ih =>
    rw [List.dropWhile_cons]
    by_cases hc : c = '/'
    · simpa [hc] using ih
    · have hc2 : ¬ ('/' = c) := fun hh => hc hh.symm
      simp [hc, startsWithL, hc2]

/-- A nonempty, slash-free first segment keeps the joined path from starting
with a slash. -/
theorem startsWith_slash_append_false (s r : Bytes) (hne : s ≠ [])
    (hs : '/' ∉ s) : startsWithL ['/'] (s ++ r) = false := by
  cases s with
  | nil => exact absurd rfl hne
  | cons c s' =>
    have hc : ¬ ('/' = c) := fun hh => hs (hh ▸ List.mem_cons_self c s')
    simp [startsWithL, hc]

/-- A path made of a nonempty, slash-free first segment distinct from `".."`,
followed by nothing or by a slash-led remainder, does not begin with a
parent-directory segment. -/
theorem beginsDotDot_append_false (s tail : Bytes) (hne : s ≠ [])
    (hs : '/' ∉ s) (hdd : s ≠ ['.', '.'])
    (htail : tail = [] ∨ ∃ r, tail = '/' :: r) :
    beginsDotDot (s ++ tail) = false := by
  unfold beginsDotDot
  simp only [show str ".." = ['.', '.'] from rfl,
    show str "../" = ['.', '.', '/'] from rfl]
  rcases s with _ | ⟨c1, s1⟩
  · exact absurd rfl hne
  rcases s1 with _ | ⟨c2, s2⟩
  · -- s = [c1]
    rcases htail with rfl | ⟨r, rfl⟩
    · simp [startsWithL]
    · simp [startsWithL]
  rcases s2 with _ | ⟨c3, s3⟩
  · -- s = [c1, c2]
    rcases htail with rfl | ⟨r, rfl⟩
    · simp only [List.append_nil]
      simp [startsWithL, hdd]
    · by_cases hc1 : ('.' : Char) = c1
      · by_cases hc2 : ('.' : Char) = c2
        · exact absurd (by rw [← hc1, ← hc2]) hdd
        · simp [startsWithL, hc2]
      · simp [startsWithL, hc1]
  · -- s has three or more characters
    have hc3 : ¬ ('/' = c3) := by
      intro hh
      apply hs
      rw [hh]
      exact List.mem_cons_of_mem c1 (List.mem_cons_of_mem c2
        (List.mem_cons_self c3 s3))
    simp [startsWithL, hc3]

/-- The joined output of good cleaned segments neither starts with a slash
nor begins with a `".."` segment. -/
theorem joined_safe (segs : List Bytes)
    (hgood : ∀ x ∈ segs, x ≠ [] ∧ '/' ∉ x ∧ x ≠ ['.', '.']) :
    startsWithL ['/'] ((segs.intersperse ['/']).flatten) = false ∧
    beginsDotDot ((segs.intersperse ['/']).flatten) = false := by
  cases segs with
  | nil => exact ⟨rfl, rfl⟩
  | cons s rest =>
    have hs := hgood s (List.mem_cons_self s rest)
    cases rest with
    | nil =>
      have hflat : ((List.intersperse ['/'] [s]).flatten) = s ++ [] := by
        simp [List.intersperse]
      rw [hflat]
      exact ⟨startsWith_slash_append_false s [] hs.1 hs.2.1,
        beginsDotDot_append_false s [] hs.1 hs.2.1 hs.2.2 (Or.inl rfl)⟩
    | cons b t =>
      have hflat : ((List.intersperse ['/'] (s :: b :: t)).flatten) =
          s ++ '/' :: (List.intersperse ['/'] (b :: t)).flatten := by
        simp [List.intersperse]
      rw [hflat]
      exact ⟨startsWith_slash_append_false s _ hs.1 hs.2.1,
        beginsDotDot_append_false s _ hs.1 hs.2.1 hs.2.2 (Or.inr ⟨_, rfl⟩)⟩

/-- Claim C1 counterexample: `ToHostPath` in safe mode *can* return a path
that begins with a `".."` segment.  The archive path `"a/../../b"` has no
leading `".."` (so the rooting hack does not fire) yet `path.Clean` reduces
it to `"../b"`, which escapes the extraction root — the claim says the result
never begins with a `".."` segment for *every* archive path. -/
theorem c1_cex :
    toHostPath false (str "a/../../b") = str "../b" ∧
    beginsDotDot (toHostPath false (str "a/../../b")) = true := by
  decide

/-- Claim C1 amended: for every archive path `p`, `ToHostPath` in safe mode
returns a nonempty path that never begins with a path separator, and an
input whose cleaned, slash-stripped form is empty yields `"."`; moreover the
result does not begin with a `".."` segment *provided* `p` begins with
`".."`, or begins with `"/"`, or contains no `".."` segment at all.  (The
counterexample shows the proviso is needed: an interior excess of `".."`
segments, as in `"a/../../b"`, escapes.) -/
theorem c1_safening (p : Bytes) :
    (toHostPath false p ≠ [] ∧
     startsWithL ['/'] (toHostPath false p) = false ∧
     (trimLeftSlash (pathClean (if startsWithL (str "..") p then '/' :: p
        else p)) = [] → toHostPath false p = str ".")) ∧
    ((startsWithL (str "..") p = true ∨ startsWithL ['/'] p = true ∨
        (str "..") ∉ splitOnChar '/' p) →
      beginsDotDot (toHostPath false p) = false) := by
  have hm : toHostPath false p =
      (if trimLeftSlash (pathClean (if startsWithL (str "..") p then '/' :: p
          else p)) = [] then ['.']
       else trimLeftSlash (pathClean (if startsWithL (str "..") p then
          '/' :: p else p))) := rfl
  constructor
  · refine ⟨?_, ?_, ?_⟩
    · rw [hm]
      by_cases h0 : trimLeftSlash (pathClean (if startsWithL (str "..") p then
          '/' :: p else p)) = []
      · rw [if_pos h0]; simp
      · rw [if_neg h0]; exact h0
    · rw [hm]
      by_cases h0 : trimLeftSlash (pathClean (if startsWithL (str "..") p then
          '/' :: p else p)) = []
      · rw [if_pos h0]; decide
      · rw [if_neg h0]
        exact dropWhile_slash_no_slash _
    · intro h0
      rw [hm, if_pos h0]
      rfl
  · intro hp
    rw [hm]
    set q := (if startsWithL (str "..") p then '/' :: p else p) with hq
    have key : startsWithL ['/'] q = true ∨
        (startsWithL ['/'] q = false ∧ (str "..") ∉ splitOnChar '/' q) := by
      by_cases hh : startsWithL (str "..") p = true
      · left
        rw [hq, if_pos hh]
        simp [startsWithL]
      · rcases hp with hp | hp | hp
        · exact absurd hp hh
        · left
          rw [hq, if_neg hh]
          exact hp
        · by_cases hsl : startsWithL ['/'] p = true
          · left
            rw [hq, if_neg hh]
            exact hsl
          · right
            rw [hq, if_neg hh]
            exact ⟨by simpa using hsl, hp⟩
    by_cases hqnil : q = []
    · rw [hqnil]
      decide
    · have hclean : pathClean q =
          (if startsWithL ['/'] q then
            '/' :: ((cleanSegs (startsWithL ['/'] q)
              (splitOnChar '/' q)).intersperse ['/']).flatten
          else if ((cleanSegs (startsWithL ['/'] q)
              (splitOnChar '/' q)).intersperse ['/']).flatten = [] then ['.']
          else ((cleanSegs (startsWithL ['/'] q)
              (splitOnChar '/' q)).intersperse ['/']).flatten) := by
        rw [pathClean, if_neg hqnil]
      have hgood : ∀ x ∈ cleanSegs (startsWithL ['/'] q) (splitOnChar '/' q),
          x ≠ [] ∧ '/' ∉ x ∧ x ≠ ['.', '.'] := by
        intro x hx
        unfold cleanSegs at hx
        rw [List.mem_reverse] at hx
        refine cleanFold_good (startsWithL ['/'] q) (splitOnChar '/' q) []
          (by simp) (fun y hy => splitOnChar_not_mem '/' q y hy) ?_ x hx
        rcases key with hroot | ⟨_, hnodd⟩
        · exact Or.inl hroot
        · refine Or.inr fun y hy hyeq => hnodd ?_
          show ['.', '.'] ∈ splitOnChar '/' q
          rw [← hyeq]
          exact hy
      have hjoin := joined_safe _ hgood
      set jn := ((cleanSegs (startsWithL ['/'] q)
        (splitOnChar '/' q)).intersperse ['/']).flatten with hjdef
      rcases key with hroot | ⟨hunroot, _⟩
      · have hfinal : trimLeftSlash (pathClean q) = jn := by
          rw [hclean, if_pos hroot]
          show List.dropWhile (fun x => decide (x = '/')) ('/' :: jn) = jn
          rw [List.dropWhile_cons, if_pos (by decide)]
          exact dropWhile_slash_id _ hjoin.1
        rw [hfinal]
        by_cases hjn : jn = []
        · rw [if_pos hjn]
          decide
        · rw [if_neg hjn]
          exact hjoin.2
      · have hcond : ¬ (startsWithL ['/'] q = true) := by simp [hunroot]
        by_cases hjn : jn = []
        · have hfinal : trimLeftSlash (pathClean q) = ['.'] := by
            rw [hclean, if_neg hcond, if_pos hjn]
            rfl
          rw [hfinal]
          rw [if_neg (by decide : ¬ (['.'] : Bytes) = [])]
          decide
        · have hfinal : trimLeftSlash (pathClean q) = jn := by
            rw [hclean, if_neg hcond, if_neg hjn]
            exact dropWhile_slash_id _ hjoin.1
          rw [hfinal, if_neg hjn]
          exact hjoin.2

/-! ## Claim C2: round-trip through the txtar codec -/

/-- A prefix check succeeds on itself-plus-anything. -/
theorem startsWith_append_self : ∀ (pre t : Bytes),
    startsWithL pre (pre ++ t) = true := by
  intro pre
  induction pre with
  | nil => intro t; rfl
  | cons c cs ih => intro t; simp [startsWithL, ih]

/-- A suffix check succeeds on anything-plus-itself. -/
theorem endsWith_append_self (suf x : Bytes) :
    endsWithL suf (x ++ suf) = true := by
  unfold endsWithL
  rw [List.reverse_append]
  exact startsWith_append_self suf.reverse x.reverse

/-- A newline-free prefix is decided entirely inside the first line. -/
theorem startsWithL_line : ∀ (pre line t : Bytes), '\n' ∉ pre → '\n' ∉ line →
    startsWithL pre (line ++ '\n' :: t) = startsWithL pre line := by
  intro pre
  induction pre with
  | nil => intro line t _ _; rfl
  | cons p ps ih =>
    intro line t hpre hline
    cases line with
    | nil =>
      have hp : ¬ (p = '\n') := fun hh => hpre (hh ▸ List.mem_cons_self p ps)
      simp [startsWithL, hp]
    | cons c cs =>
      simp only [List.cons_append, startsWithL, List.append_eq]
      rw [ih cs t (fun hh => hpre (List.mem_cons_of_mem p hh))
        (fun hh => hline (List.mem_cons_of_mem c hh))]

/-- Splitting at the newline that terminates a newline-free line. -/
theorem splitAtNL_append : ∀ (line t : Bytes), '\n' ∉ line →
    splitAtNL (line ++ '\n' :: t) = some (line, t) := by
  intro line
  induction line with
  | nil => intro t _; simp [splitAtNL]
  | cons c cs ih =>
    intro t h
    have hc : ¬ (c = '\n') := fun hh => h (hh ▸ List.mem_cons_self c cs)
    simp only [List.cons_append, splitAtNL, List.append_eq]
    rw [if_neg hc, ih t (fun hh => h (List.mem_cons_of_mem c hh))]

/-- `markerName?` recognizes a well-formed marker line, returning the name
and the bytes after the line. -/
theorem markerName_pos (n t : Bytes) (hvn : ValidName n) :
    markerName? (markerPre ++ n ++ markerClose ++ '\n' :: t) =
      some (n, t) := by
  have hnl : '\n' ∉ markerPre ++ (n ++ markerClose) := by
    intro hmem
    rcases List.mem_append.mp hmem with hmem | hmem
    · simp [markerPre, str] at hmem
    · rcases List.mem_append.mp hmem with hmem | hmem
      · exact hvn.2.1 hmem
      · simp [markerClose, str] at hmem
  have h1 : startsWithL markerPre
      (markerPre ++ (n ++ (markerClose ++ '\n' :: t))) = true :=
    startsWith_append_self markerPre _
  have h2 : splitAtNL (markerPre ++ (n ++ (markerClose ++ '\n' :: t))) =
      some (markerPre ++ (n ++ markerClose), t) := by
    have := splitAtNL_append (markerPre ++ (n ++ markerClose)) t hnl
    rw [show (markerPre ++ (n ++ markerClose)) ++ '\n' :: t =
        markerPre ++ (n ++ (markerClose ++ '\n' :: t)) from by
      simp [List.append_assoc]] at this
    exact this
  have h3 : endsWithL markerClose (markerPre ++ (n ++ markerClose)) = true := by
    have := endsWith_append_self markerClose (markerPre ++ n)
    rwa [List.append_assoc] at this
  have h4 : 6 ≤ markerPre.length + (n.length + markerClose.length) := by
    simp [markerPre, markerClose, str]
    omega
  have h5 : dropLast3 ((markerPre ++ (n ++ markerClose)).drop 3) = n := by
    rw [show (3 : Nat) = markerPre.length from rfl, List.drop_left]
    unfold dropLast3
    have hlen : (n ++ markerClose).length - 3 = n.length := by
      simp [markerClose, str]
    rw [hlen, List.take_left]
  simp [markerName?, h1, h2, h3, h4, h5, hvn.1, hvn.2.2]

/-- `markerName?` rejects any line that is not a marker-line collision (does
not both start with `"-- "` and end with `" --"`). -/
theorem markerName_neg (line t : Bytes) (hline : '\n' ∉ line)
    (hnm : ¬(startsWithL markerPre line = true ∧
      endsWithL markerClose line = true)) :
    markerName? (line ++ '\n' :: t) = none := by
  unfold markerName?
  by_cases hs : startsWithL markerPre (line ++ '\n' :: t) = true
  · have hs' : startsWithL markerPre line = true := by
      rw [← startsWithL_line markerPre line t (by decide) hline]
      exact hs
    rw [hs, if_pos rfl]
    rw [splitAtNL_append line t hline]
    have he : endsWithL markerClose line = false := by
      cases h : endsWithL markerClose line with
      | false => rfl
      | true => exact absurd ⟨hs', h⟩ hnm
    simp [he]
  · rw [if_neg]
    intro hc
    exact hs hc

/-- `ffmAux` at a line start returns the marker immediately when there is
one. -/
theorem ffmAux_marker (data : Bytes) (n a : Bytes) (hne : data ≠ [])
    (h : markerName? data = some (n, a)) : ffmAux data true = ([], n, a) := by
  cases data with
  | nil => exact absurd rfl hne
  | cons c rest => simp [ffmAux, h]

/-- `ffmAux` in mid-line consumes the rest of the line without looking for
markers, then continues at the next line start. -/
theorem ffmAux_mid : ∀ (line t : Bytes), '\n' ∉ line →
    ffmAux (line ++ '\n' :: t) false =
      (line ++ '\n' :: (ffmAux t true).1, (ffmAux t true).2.1,
        (ffmAux t true).2.2) := by
  intro line
  induction line with
  | nil => intro t _; simp [ffmAux]
  | cons c cs ih =>
    intro t h
    have hc : ¬ (c = '\n') := fun hh => h (hh ▸ List.mem_cons_self c cs)
    simp only [List.cons_append, ffmAux, List.append_eq]
    rw [show (decide (c = '\n')) = false from by simp [hc]]
    rw [ih t (fun hh => h (List.mem_cons_of_mem c hh))]
    rfl

/-- `ffmAux` at a line start skips a whole non-marker line. -/
theorem ffmAux_line (line t : Bytes) (hline : '\n' ∉ line)
    (hnm : ¬(startsWithL markerPre line = true ∧
      endsWithL markerClose line = true)) :
    ffmAux (line ++ '\n' :: t) true =
      (line ++ '\n' :: (ffmAux t true).1, (ffmAux t true).2.1,
        (ffmAux t true).2.2) := by
  have hmn := markerName_neg line t hline hnm
  cases line with
  | nil =>
    simp only [List.nil_append] at hmn ⊢
    simp [ffmAux, hmn]
  | cons c cs =>
    have hc : ¬ (c = '\n') := fun hh => hline (hh ▸ List.mem_cons_self c cs)
    simp only [List.cons_append] at hmn
    simp only [List.cons_append, ffmAux, List.append_eq]
    rw [hmn]
    rw [show (decide (c = '\n')) = false from by simp [hc]]
    rw [ffmAux_mid cs t (fun hh => hline (List.mem_cons_of_mem c hh))]
    rfl

/-- Safe text is empty or newline-terminated. -/
theorem SafeText.last_nl {d : Bytes} (h : SafeText d) :
    d = [] ∨ d.getLast? = some '\n' := by
  induction h with
  | nil => exact Or.inl rfl
  | cons line rest _ _ hrest ih =>
    right
    rw [List.getLast?_append_cons]
    rcases ih with rfl | hlast
    · rfl
    · cases rest with
      | nil => simp at hlast
      | cons y ys =>
        rw [List.getLast?_cons_cons]
        exact hlast

/-- `fixNL` leaves safe text unchanged. -/
theorem SafeText.fixNL_eq {d : Bytes} (h : SafeText d) : fixNL d = d := by
  unfold fixNL
  rw [if_pos h.last_nl]

/-- Scanning safe text never finds a marker, so `ffmAux` passes over it
unchanged and continues on whatever follows. -/
theorem ffm_safeText {c : Bytes} (hc : SafeText c) : ∀ s : Bytes,
    ffmAux (c ++ s) true =
      (c ++ (ffmAux s true).1, (ffmAux s true).2.1, (ffmAux s true).2.2) := by
  induction hc with
  | nil => intro s; simp
  | cons line rest hline hnm hrest ih =>
    intro s
    have hsplit : (line ++ '\n' :: rest) ++ s = line ++ '\n' :: (rest ++ s) := by
      simp [List.append_assoc]
    rw [hsplit, ffmAux_line line (rest ++ s) hline hnm, ih s]
    simp [List.append_assoc]

/-- Scanning safe text alone yields it back with no marker found. -/
theorem ffm_safeText_eof {c : Bytes} (hc : SafeText c) :
    ffmAux c true = (c, [], []) := by
  have h := ffm_safeText hc []
  rw [List.append_nil] at h
  simpa [ffmAux] using h

/-- `ffmAux` on safe text followed by a marker block finds exactly that
marker. -/
theorem ffm_at_block (d n1 t : Bytes) (hd : SafeText d) (hvn : ValidName n1) :
    ffmAux (d ++ (markerPre ++ n1 ++ markerClose ++ '\n' :: t)) true =
      (d, n1, t) := by
  rw [ffm_safeText hd]
  rw [ffmAux_marker _ n1 t (by simp [markerPre, str])
    (markerName_pos n1 t hvn)]
  simp

/-- `fixNL` is the identity on each safe data block, so `txtar.Format`'s
output is the comment followed by the raw blocks. -/
theorem flatMap_fixNL : ∀ (files : List Entry),
    (∀ f ∈ files, SafeText f.2) →
    files.flatMap
        (fun f => markerPre ++ f.1 ++ markerClose ++ '\n' :: fixNL f.2) =
      files.flatMap
        (fun f => markerPre ++ f.1 ++ markerClose ++ '\n' :: f.2) := by
  intro files
  induction files with
  | nil => intro _; rfl
  | cons f rest ih =>
    intro hf
    rw [List.flatMap_cons, List.flatMap_cons,
      (hf f (List.mem_cons_self f rest)).fixNL_eq,
      ih (fun g hg => hf g (List.mem_cons_of_mem f hg))]

/-- `txtar.Format` on a safe archive is the comment followed by the blocks. -/
theorem format_blocks (c : Bytes) (files : List Entry) (hc : SafeText c)
    (hf : ∀ f ∈ files, SafeText f.2) :
    txtarFormat c files = c ++ files.flatMap
      (fun f => markerPre ++ f.1 ++ markerClose ++ '\n' :: f.2) := by
  unfold txtarFormat
  rw [hc.fixNL_eq, flatMap_fixNL files hf]

/-- The entry loop of `txtar.Parse` inverts the block encoding: given enough
fuel, a pending name, its safe data and the remaining blocks parse to
exactly the expected entries. -/
theorem parseFilesF_blocks :
    ∀ (files : List Entry) (fuel : Nat) (nm d : Bytes),
    SafeText d → (∀ f ∈ files, ValidName f.1 ∧ SafeText f.2) →
    (d ++ files.flatMap
      (fun f => markerPre ++ f.1 ++ markerClose ++ '\n' :: f.2)).length <
        fuel →
    parseFilesF fuel nm (d ++ files.flatMap
        (fun f => markerPre ++ f.1 ++ markerClose ++ '\n' :: f.2)) =
      (nm, d) :: files := by
  intro files
  induction files with
  | nil =>
    intro fuel nm d hd _ hfuel
    rw [List.flatMap_nil, List.append_nil] at hfuel ⊢
    cases fuel with
    | zero => exact absurd hfuel (Nat.not_lt_zero _)
    | succ k =>
      simp only [parseFilesF]
      rw [show findFileMarker d = (d, [], []) from ffm_safeText_eof hd]
      simp
  | cons f rest ih =>
    intro fuel nm d hd hf hfuel
    obtain ⟨n1, d1⟩ := f
    have hvn : ValidName n1 := (hf (n1, d1) (List.mem_cons_self _ rest)).1
    have hdata : d ++ ((n1, d1) :: rest).flatMap
        (fun f => markerPre ++ f.1 ++ markerClose ++ '\n' :: f.2) =
        d ++ (markerPre ++ n1 ++ markerClose ++ '\n' ::
          (d1 ++ rest.flatMap
            (fun f => markerPre ++ f.1 ++ markerClose ++ '\n' :: f.2))) := by
      rw [List.flatMap_cons]
      simp [List.append_assoc]
    rw [hdata] at hfuel ⊢
    cases fuel with
    | zero => exact absurd hfuel (Nat.not_lt_zero _)
    | succ k =>
      simp only [parseFilesF]
      rw [show findFileMarker (d ++ (markerPre ++ n1 ++ markerClose ++ '\n' ::
          (d1 ++ rest.flatMap
            (fun f => markerPre ++ f.1 ++ markerClose ++ '\n' :: f.2)))) =
          (d, n1, d1 ++ rest.flatMap
            (fun f => markerPre ++ f.1 ++ markerClose ++ '\n' :: f.2)) from
        ffm_at_block d n1 _ hd hvn]
      simp only []
      rw [if_neg hvn.1]
      rw [ih k n1 d1 (hf (n1, d1) (List.mem_cons_self _ rest)).2
        (fun g hg => hf g (List.mem_cons_of_mem _ hg)) ?_]
      have hlen : (d ++ (markerPre ++ n1 ++ markerClose ++ '\n' ::
          (d1 ++ rest.flatMap
            (fun f => markerPre ++ f.1 ++ markerClose ++ '\n' :: f.2)))).length
          = d.length + n1.length + 7 +
            (d1 ++ rest.flatMap
              (fun f => markerPre ++ f.1 ++ markerClose ++ '\n' ::
                f.2)).length := by
        simp [markerPre, markerClose, str, List.length_append]
        omega
      rw [hlen] at hfuel
      omega

/-- `txtar.Parse` inverts `txtar.Format` on safe archives. -/
theorem parse_format (c : Bytes) (files : List Entry) (hc : SafeText c)
    (hf : ∀ f ∈ files, ValidName f.1 ∧ SafeText f.2) :
    txtarParse (txtarFormat c files) = (c, files) := by
  rw [format_blocks c files hc (fun f h => (hf f h).2)]
  cases files with
  | nil =>
    rw [List.flatMap_nil, List.append_nil]
    unfold txtarParse
    rw [show findFileMarker c = (c, [], []) from ffm_safeText_eof hc]
    simp
  | cons f rest =>
    obtain ⟨n1, d1⟩ := f
    have hvn : ValidName n1 := (hf (n1, d1) (List.mem_cons_self _ rest)).1
    have hdata : c ++ ((n1, d1) :: rest).flatMap
        (fun f => markerPre ++ f.1 ++ markerClose ++ '\n' :: f.2) =
        c ++ (markerPre ++ n1 ++ markerClose ++ '\n' ::
          (d1 ++ rest.flatMap
            (fun f => markerPre ++ f.1 ++ markerClose ++ '\n' :: f.2))) := by
      rw [List.flatMap_cons]
      simp [List.append_assoc]
    rw [hdata]
    unfold txtarParse
    rw [show findFileMarker (c ++ (markerPre ++ n1 ++ markerClose ++ '\n' ::
        (d1 ++ rest.flatMap
          (fun f => markerPre ++ f.1 ++ markerClose ++ '\n' :: f.2)))) =
        (c, n1, d1 ++ rest.flatMap
          (fun f => markerPre ++ f.1 ++ markerClose ++ '\n' :: f.2)) from
      ffm_at_block c n1 _ hc hvn]
    simp only []
    rw [if_neg hvn.1]
    rw [parseFilesF_blocks rest _ n1 d1
      (hf (n1, d1) (List.mem_cons_self _ rest)).2
      (fun g hg => hf g (List.mem_cons_of_mem _ hg)) (by omega)]

/-- Claim C2 counterexample: the round trip fails for a Comment with no
marker-line collision that merely lacks a trailing newline.  Create with
Comment `"c"` and no entries emits `"c\n"` (`txtar.Format` appends the
newline), and decoding yields Comment `"c\n"`, not `"c"`. -/
theorem c2_cex :
    hasMarkerLine (str "c") = false ∧
    decodeBytes false id (createBytes false id (str "c") []) =
      (str "c\n", []) ∧ (str "c\n") ≠ (str "c") := by
  decide

/-- Claim C2 amended: the round trip holds once the archive is
newline-normalized.  For any Comment that is a sequence of newline-terminated
lines with no marker-line collision (`SafeText`), and entries whose names are
nonempty, newline-free and whitespace-trimmed (`ValidName`) and whose data is
likewise `SafeText`, decoding the bytes Create wrote — through any
compressor/decompressor pair `gz`/`gunz` with `gunz ∘ gz = id` when `WithGzip`
is set, and directly otherwise — yields the same Comment and the same
`(Name, Data)` entries in the same order, identically for both values of the
flag. -/
theorem c2_roundtrip (gz gunz : Bytes → Bytes) (hinv : ∀ x, gunz (gz x) = x)
    (withGzip : Bool) (c : Bytes) (files : List Entry) (hc : SafeText c)
    (hf : ∀ f ∈ files, ValidName f.1 ∧ SafeText f.2) :
    decodeBytes withGzip gunz (createBytes withGzip gz c files) =
      (c, files) := by
  unfold decodeBytes createBytes
  cases withGzip with
  | false => simpa using parse_format c files hc hf
  | true =>
    simp only [if_true, hinv]
    exact parse_format c files hc hf

/-! ## Witnesses -/

/-- Witness for the amended C1 theorem at the concrete input `"../x"`. -/
theorem c1_safening_w :
    toHostPath false (str "../x") ≠ [] ∧
    beginsDotDot (toHostPath false (str "../x")) = false :=
  ⟨(c1_safening (str "../x")).1.1,
   (c1_safening (str "../x")).2 (Or.inl (by decide))⟩

/-- Witness for the amended C2 theorem: a one-file archive with empty
comment round-trips, with the gzip flag set and the identity as the
compressor pair. -/
theorem c2_roundtrip_w :
    decodeBytes true id (createBytes true id [] [(['a'], ['h', '\n'])]) =
      ([], [(['a'], ['h', '\n'])]) :=
  c2_roundtrip id id (fun _ => rfl) true [] [(['a'], ['h', '\n'])]
    SafeText.nil (by
      intro f hf
      simp only [List.mem_singleton] at hf
      subst hf
      exact ⟨⟨by decide, by decide, by decide⟩,
        SafeText.cons ['h'] [] (by decide) (by decide) SafeText.nil⟩)

/-- Witness for the amended C5 theorem at concrete runs. -/
theorem c5_failures_fatal_w :
    runWalk (fun _ => false) false []
        ([] ++ WEvent.visitErr (str "x") :: []) = .error (.visit (str "x")) ∧
    runWalk (fun _ => false) false []
        ([] ++ WEvent.node (str "y") true none :: []) =
      .error (.read (str "y")) ∧
    runWalk (fun _ => true) false []
        ([] ++ WEvent.visitErr (str "x") :: []) =
      runWalk (fun _ => true) false [] [] ∧
    runEntries
        ⟨fun _ => false, fun g hn => decide (g = hn), [], false, false, [],
          fun _ => none, fun _ => some (str "boom")⟩ true
        ([] ++ (str "a", str "d") :: []) =
      .error (str "processing a: writing a: boom") :=
  ⟨c5_failures_fatal.1 (fun _ => false) false [] [] [] [] (str "x") rfl rfl,
   c5_failures_fatal.2.1 (fun _ => false) false [] [] [] [] (str "y") rfl rfl,
   c5_failures_fatal.2.2.1 (fun _ => true) false [] [] [] [] (str "x") rfl rfl,
   c5_failures_fatal.2.2.2
     ⟨fun _ => false, fun g hn => decide (g = hn), [], false, false, [],
       fun _ => none, fun _ => some (str "boom")⟩ true [] []
     (str "a", str "d") [] (str "writing a: boom") rfl rfl⟩

/-- Witness for the amended C7 theorem at a concrete run: requested path
`"nope"` over an archive holding only `"a"`. -/
theorem c7_unmatched_report_w :
    (oldExtract [str "nope"] (fun _ => false) [(str "a", str "x")]).2 =
      [str "nope"] ∧
    (oldExtract [str "nope"] (fun _ => false) [(str "a", str "x")]).1 = [] :=
  c7_unmatched_report [str "nope"] (fun _ => false) [(str "a", str "x")]
    (by decide)

/-- Witness for the C8 theorem: excluding everything skips a walked node, a
failing node, and an archive entry. -/
theorem c8_exclusion_wins_w :
    (wdfStep (fun _ => true) false [] (.node (str "x") true (some (str "d"))) =
        .ok [] ∧
      wdfStep (fun _ => true) false [] (.visitErr (str "x")) = .ok []) ∧
    extractEntry
        ⟨fun _ => true, fun g hn => decide (g = hn), [str "a"], false, true,
          [], fun _ => none, fun _ => none⟩ true (str "a", str "d") =
      .ok [] :=
  ⟨c8_exclusion_wins.1 (fun _ => true) false [] (str "x") true
      (some (str "d")) rfl,
   c8_exclusion_wins.2
     ⟨fun _ => true, fun g hn => decide (g = hn), [str "a"], false, true, [],
       fun _ => none, fun _ => none⟩ true (str "a", str "d") rfl⟩

/-- Witness for the C9 theorem: one concrete `upsert` preserves name
uniqueness. -/
theorem c9_names_unique_w :
    ((upsert [(str "a", str "x")] (str "b", str "y")).map Prod.fst).Nodup :=
  c9_names_unique.2 [(str "a", str "x")] (str "b", str "y") (by decide)

/-! ## Sanity: the Go test vectors of `TestArchiverToFromHostPath`
(`archiver_test.go`), reproduced against the embedded safener, plus a codec
spot check. -/

/-- The nine safe-mode test vectors and one unsafe-mode vector from the Go
test suite hold of the embedded `maybeSafenPath`. -/
theorem safen_go_test_vectors :
    maybeSafenPath false (str "/p") = str "p" ∧
    maybeSafenPath false (str "//////////p") = str "p" ∧
    maybeSafenPath false (str "/") = str "." ∧
    maybeSafenPath false (str "//") = str "." ∧
    maybeSafenPath false (str "p/foo") = str "p/foo" ∧
    maybeSafenPath false (str "/p/foo") = str "p/foo" ∧
    maybeSafenPath false (str "/p/") = str "p" ∧
    maybeSafenPath false (str "../../p") = str "p" ∧
    maybeSafenPath false (str "/../../p") = str "p" ∧
    maybeSafenPath true (str "/../../p") = str "/../../p" := by
  decide

/-- A small concrete encode/decode pair behaves like `txtar`. -/
theorem codec_spot_check :
    txtarFormat (str "c\n") [(str "a", str "hi\n")] =
      str "c\n-- a --\nhi\n" ∧
    txtarParse (str "c\n-- a --\nhi\n") =
      (str "c\n", [(str "a", str "hi\n")]) ∧
    txtarParse (str "-- a --\nx\n-- b --\n") =
      ([], [(str "a", str "x\n"), (str "b", [])]) := by
  decide
